import Mathlib

/-!
Verification of the toupee model core: a shallow embedding of
`src/toupee/model.py` (layer-graph injection, positional weight copying,
and the epoch-indexed optimizer / learning-rate schedule), together with
theorems settling the specification's claims about it.
-/

namespace Toupee

/-! ## Layer graph data model

A Keras layer record, as `Model.inject_layers` manipulates it: its `name`,
the copy of the name stored under `config.name` (`layer['config']['name']`),
and the list of inbound layer names (`layer['inbound_nodes']`).  All other
configuration is opaque to the code under verification.
-/

structure Layer where
  name : String
  cfgName : String
  inbound : List String
deriving DecidableEq

/-- Modelled from the spec: `tp.utils.replace_inbound_layer` is imported by
`src/toupee/model.py` but its source is not in the repository snapshot.  Per
the spec, it rewrites every `inbound` entry that equals the old name to the
new name, leaving all other entries unchanged. -/
def replace_inbound_layer (inbound : List String) (old new : String) : List String :=
  inbound.map fun n => if n = old then new else n

/-- The generated name of an injected layer:
`f"autogenerated-{new_layer['name']}-{inject_uuid}-{i}"` in the source. -/
def genName (base uuid : String) (i : Nat) : String :=
  "autogenerated-" ++ base ++ "-" ++ uuid ++ "-" ++ Nat.repr i

/-- Python dict insertion (`replacement_mappings[k] = v`): update the value in
place when the key is present, append the binding otherwise. -/
def dictInsert : List (String × String) → String → String → List (String × String)
  | [], k, v => [(k, v)]
  | (k0, v0) :: rest, k, v =>
    if k0 = k then (k0, v) :: rest else (k0, v0) :: dictInsert rest k v

/-- The body of the inner loop of `Model.inject_layers` for the template
layer at batch position `i`: generate the new name, rename the layer (both
`name` and `config.name`), and rewrite its inbound entries through every
mapping of the extended `replacement_mappings` in dict order. -/
def renameLayer (uuid : String) (i : Nat) (maps : List (String × String))
    (l : Layer) : Layer :=
  let nn := genName l.name uuid i
  { name := nn, cfgName := nn,
    inbound := (dictInsert maps l.name nn).foldl
      (fun ib p => replace_inbound_layer ib p.1 p.2) l.inbound }

/-- The inner loop of `Model.inject_layers`: rename each template layer in
turn, extending `replacement_mappings` as it goes and threading
`last_new_layer` (the name of the layer most recently appended). -/
def insertLoop (uuid : String) :
    List Layer → Nat → List (String × String) → Option String →
    List Layer × Option String
  | [], _, _, last => ([], last)
  | l :: rest, i, maps, _ =>
    let nn := genName l.name uuid i
    let r := insertLoop uuid rest (i + 1) (dictInsert maps l.name nn) (some nn)
    (renameLayer uuid i maps l :: r.1, r.2)

/-- The insertion performed at the anchor: the inner loop started with
`replacement_mappings = {'PREDECESSOR': predecessor}`, batch position `0`, and
`last_new_layer` still unassigned. -/
def insertResult (additional : List Layer) (pred uuid : String) :
    List Layer × Option String :=
  insertLoop uuid additional 0 [("PREDECESSOR", pred)] none

/-- The error raised by CPython when a local variable is read before any
assignment to it, as happens to `last_new_layer` when the inner loop never
ran. -/
def unboundMsg : String :=
  "UnboundLocalError: local variable last_new_layer referenced before assignment"

/-- The scan of `Model.inject_layers` over `model_config['layers']`: emit each
layer until the one named `predecessor`, emit the inserted batch there, and
rewrite `predecessor` to `last_new_layer` in the inbound lists of every later
layer.  Returns the new layer list and the final value of `last_new_layer`
(`none` when it was never assigned).  Reading `last_new_layer` while unassigned
— which the relinking of any layer after the anchor does when the template
batch is empty — raises `UnboundLocalError`. -/
def injectLoop (additional : List Layer) (pred uuid : String) :
    List Layer → Except String (List Layer × Option String)
  | [] => .ok ([], none)
  | l :: rest =>
    if l.name = pred then
      match insertResult additional pred uuid with
      | (newLs, some t) =>
        .ok (l :: (newLs ++ rest.map fun m =>
          { m with inbound := replace_inbound_layer m.inbound pred t }), some t)
      | (newLs, none) =>
        match rest with
        | [] => .ok (l :: newLs, none)
        | _ :: _ => .error unboundMsg
    else
      match injectLoop additional pred uuid rest with
      | .error e => .error e
      | .ok (out, last) => .ok (l :: out, last)

/-- `Model.inject_layers` end to end: run the scan, then `return
last_new_layer` — which raises `UnboundLocalError` when the variable was never
assigned (anchor absent, or an empty template batch). -/
def inject_layers (layers additional : List Layer) (pred uuid : String) :
    Except String (List Layer × String) :=
  match injectLoop additional pred uuid layers with
  | .error e => .error e
  | .ok (_, none) => .error unboundMsg
  | .ok (out, some t) => .ok (out, t)

/-! Concrete layers for the spec's worked example `A -> B -> C`, injecting
`[X, Y]` after `A` with `X.inbound = [PREDECESSOR]`, `Y.inbound = [X]`. -/

def exA : Layer := ⟨"A", "A", []⟩
def exB : Layer := ⟨"B", "B", ["A"]⟩
def exC : Layer := ⟨"C", "C", ["B"]⟩
def exX : Layer := ⟨"X", "X", ["PREDECESSOR"]⟩
def exY : Layer := ⟨"Y", "Y", ["X"]⟩

/-! ## Weight copying (`Model.copy_weights`)

A layer as the weight-transplanting loop sees it: a name and an opaque blob of
learned parameters (`get_weights()` / `set_weights()`), of some type `W`.
`copy_weights` iterates `zip(self._model.layers, other_model._model.layers)` —
pairing strictly by position up to the shorter length — and for each pair
either breaks (name mismatch with `early_stop`), skips (mismatch without), or
copies the source layer's weights onto the destination layer.  The loop is
embedded as a transformer of the pair (destination layers, source layers) so
that its effect on both models is visible. -/

structure WLayer (W : Type) where
  name : String
  weights : W
deriving DecidableEq

def copy_weights_loop {W : Type} (es : Bool) :
    List (WLayer W) → List (WLayer W) → List (WLayer W) × List (WLayer W)
  | [], src => ([], src)
  | dst, [] => (dst, [])
  | d :: ds, s :: ss =>
    if d.name ≠ s.name then
      if es then (d :: ds, s :: ss)
      else
        let r := copy_weights_loop es ds ss
        (d :: r.1, s :: r.2)
    else
      let r := copy_weights_loop es ds ss
      ({ d with weights := s.weights } :: r.1, s :: r.2)

/-- `Model.copy_weights(self, other_model, early_stop)`: the state of
`self._model.layers` after the loop. -/
def copy_weights {W : Type} (dst src : List (WLayer W)) (es : Bool) :
    List (WLayer W) :=
  (copy_weights_loop es dst src).1

/-! ## Optimizer schedule (`OptimizerSchedule`)

The learning-rate field of an optimizer configuration is either a scalar or a
nested epoch-threshold map (`config['learning_rate']` a number or a dict); the
rest of the configuration is opaque, kept as the `class_name` tag.  Scalars
have some type `V` — the scheduling code only selects them, never computes
with them. -/

inductive LRField (V : Type) where
  | scalar (v : V)
  | sched (m : List (Nat × V))
deriving DecidableEq

structure OptSpec (V : Type) where
  class_name : String
  lr : LRField V
deriving DecidableEq

/-- A deserialized optimizer (`tf.keras.optimizers.deserialize(conf)`):
opaque to the schedule beyond the configuration it was built from. -/
structure Optimizer (V : Type) where
  conf : OptSpec V
deriving DecidableEq

/-- The constructor argument: either a bare optimizer config (detected by its
`class_name` key) or an epoch-threshold table. -/
inductive ScheduleInput (V : Type) where
  | single (s : OptSpec V)
  | table (m : List (Nat × OptSpec V))
deriving DecidableEq

/-- Deserialization of one entry as `OptimizerSchedule.__init__` performs it:
when the learning rate is a dict, it is first collapsed to
`lr[min(lr.keys())]`; `min` of an empty dict raises `ValueError`. -/
def deserializeOpt {V : Type} (c : OptSpec V) : Except String (Optimizer V) :=
  match c.lr with
  | .scalar _ => .ok ⟨c⟩
  | .sched m =>
    match (m.map Prod.fst).min? with
    | none => .error "ValueError: min() arg is an empty sequence"
    | some k =>
      match m.lookup k with
      | some v => .ok ⟨{ c with lr := .scalar v }⟩
      | none => .error "KeyError"

/-- The `for thresh, opt_params in self.params.items()` loop of the
constructor, building `self.optimizers` in iteration order. -/
def buildOptimizers {V : Type} :
    List (Nat × OptSpec V) → Except String (List (Nat × Optimizer V))
  | [] => .ok []
  | (t, c) :: rest =>
    match deserializeOpt c with
    | .error e => .error e
    | .ok o =>
      match buildOptimizers rest with
      | .error e => .error e
      | .ok os => .ok ((t, o) :: os)

structure Schedule (V : Type) where
  params : List (Nat × OptSpec V)
  optimizers : List (Nat × Optimizer V)
  epochs : Nat
deriving DecidableEq

/-- `OptimizerSchedule.__init__(params, epochs)`: a bare config (one with a
`class_name` key) is promoted to the implicit table `{0: params}`; then every
entry is deserialized.  No other validation is performed. -/
def mkSchedule {V : Type} (input : ScheduleInput V) (epochs : Nat) :
    Except String (Schedule V) :=
  let params : List (Nat × OptSpec V) :=
    match input with
    | .single s => [(0, s)]
    | .table m => m
  match buildOptimizers params with
  | .error e => .error e
  | .ok opts => .ok { params := params, optimizers := opts, epochs := epochs }

/-- `sorted(keys, reverse=True)`: the keys in descending order (insertion
sort; the keys of a dict are distinct, so any correct descending sort of them
produces this list). -/
def insertDesc (x : Nat) : List Nat → List Nat
  | [] => [x]
  | y :: ys => if y < x then x :: y :: ys else y :: insertDesc x ys

def sortedDesc : List Nat → List Nat
  | [] => []
  | x :: xs => insertDesc x (sortedDesc xs)

/-- The shared shape of `_opt_scheduler` and `_params_scheduler`: walk the
dict's keys in descending order and return the value of the first key `≤
epoch`; fall through (returning `None`) when every key exceeds the epoch. -/
def dict_scheduler {β : Type} (m : List (Nat × β)) (e : Nat) : Option β :=
  match (sortedDesc (m.map Prod.fst)).find? (fun t => decide (t ≤ e)) with
  | some t => m.lookup t
  | none => none

/-- `OptimizerSchedule.__getitem__` = `_opt_scheduler`. -/
def opt_getitem {V : Type} (s : Schedule V) (e : Nat) : Option (Optimizer V) :=
  dict_scheduler s.optimizers e

/-- The inner loop of `_lr_scheduler` over a learning-rate dict: `lr` starts
as `None` and is overwritten by every entry (in the dict's listed order) whose
threshold is `≤ epoch`. -/
def lr_last {V : Type} (m : List (Nat × V)) (e : Nat) : Option V :=
  m.foldl (fun acc p => if p.1 ≤ e then some p.2 else acc) none

/-- `OptimizerSchedule._lr_scheduler(epoch)`: select the top-level entry with
`_params_scheduler` (subscripting its `None` result raises `TypeError`), then
either return its scalar learning rate or run the listed-order loop over its
learning-rate dict. -/
def lr_scheduler {V : Type} (params : List (Nat × OptSpec V)) (e : Nat) :
    Except String (Option V) :=
  match dict_scheduler params e with
  | none => .error "TypeError: NoneType object is not subscriptable"
  | some p =>
    match p.lr with
    | .scalar v => .ok (some v)
    | .sched m => .ok (lr_last m e)

/-! Concrete schedule material for the spec's examples: the threshold table
`{0: cfgA, 5: cfgB, 10: cfgC}` and the gap table `{5: cfgB}`. -/

def exCfgA : OptSpec Nat := ⟨"cfgA", .scalar 1⟩
def exCfgB : OptSpec Nat := ⟨"cfgB", .scalar 2⟩
def exCfgC : OptSpec Nat := ⟨"cfgC", .scalar 3⟩

def exSched : Schedule Nat :=
  ⟨[(0, exCfgA), (5, exCfgB), (10, exCfgC)],
   [(0, ⟨exCfgA⟩), (5, ⟨exCfgB⟩), (10, ⟨exCfgC⟩)], 20⟩

def exSchedGap : Schedule Nat := ⟨[(5, exCfgB)], [(5, ⟨exCfgB⟩)], 20⟩

/-- The nested learning-rate dict of the C3 counterexample, listed in
descending key order: `{3: 1, 0: 2}`. -/
def ceLRDict : List (Nat × Nat) := [(3, 1), (0, 2)]

def ceParams : List (Nat × OptSpec Nat) := [(0, ⟨"sgd", .sched ceLRDict⟩)]

/-- The spec's nested learning-rate example, `{0: {lr: {0: 0.1, 3: 0.01}}}`
with the nested keys listed in ascending order. -/
def exLRDict : List (Nat × ℚ) := [(0, 1/10), (3, 1/100)]

def exLRParams : List (Nat × OptSpec ℚ) := [(0, ⟨"sgd", .sched exLRDict⟩)]

/-- Verification-side characterization of the decimal numeral `Nat.repr`
builds: the digit characters of `n`, most significant first.  Used only to
reason about the numerals embedded in generated layer names. -/
def decDigits (n : Nat) : List Char :=
  if _h : n < 10 then [Nat.digitChar n]
  else decDigits (n / 10) ++ [Nat.digitChar (n % 10)]
decreasing_by exact Nat.div_lt_self (by omega) (by omega)

/-! ## Theorems about weight copying -/

/-- C9: the transplanting loop never writes the source model: the second
component of the state — the source's layer list — is returned exactly as it
was given, for either value of `early_stop`.  Only destination layers are
updated. -/
theorem copy_weights_preserves_source {W : Type} :
    ∀ (dst src : List (WLayer W)) (es : Bool),
      (copy_weights_loop es dst src).2 = src := by
  intro dst
  induction dst with
  | nil => intro src es; cases src <;> rfl
  | cons d ds ih =>
    intro src es
    cases src with
    | nil => rfl
    | cons s ss =>
      simp only [copy_weights_loop]
      by_cases h : d.name = s.name
      · simp [h, ih ss]
      · by_cases hes : es = true <;> simp [h, hes, ih ss]

/-- C4: `copy_weights` pairs layers strictly by position.  Without
`early_stop` every position up to the shorter length whose names match is
copied and every other position is skipped in lockstep; with `early_stop` the
positions before the first name mismatch are copied and everything from the
mismatch on — even later name-matching pairs — is left untouched.  The final
two conjuncts check the spec's worked example: source names `[a, b, c]`,
destination names `[a, x, c]` copy indices 0 and 2 without `early_stop` and
only index 0 with it. -/
theorem copy_weights_lockstep :
    (∀ (W : Type) (dst src : List (WLayer W)),
      copy_weights dst src false =
        (List.zipWith
          (fun d s => if d.name = s.name then { d with weights := s.weights } else d)
          dst src) ++ dst.drop src.length)
    ∧ (∀ (W : Type) (dst src : List (WLayer W)),
      copy_weights dst src true =
        (((dst.zip src).takeWhile (fun p => decide (p.1.name = p.2.name))).map
          (fun p => { p.1 with weights := p.2.weights }))
        ++ dst.drop
            ((dst.zip src).takeWhile (fun p => decide (p.1.name = p.2.name))).length)
    ∧ copy_weights [⟨"a", 0⟩, ⟨"b", 0⟩, ⟨"c", 0⟩]
        [⟨"a", 7⟩, ⟨"x", 8⟩, ⟨"c", 9⟩] false
        = [(⟨"a", 7⟩ : WLayer Nat), ⟨"b", 0⟩, ⟨"c", 9⟩]
    ∧ copy_weights [⟨"a", 0⟩, ⟨"b", 0⟩, ⟨"c", 0⟩]
        [⟨"a", 7⟩, ⟨"x", 8⟩, ⟨"c", 9⟩] true
        = [(⟨"a", 7⟩ : WLayer Nat), ⟨"b", 0⟩, ⟨"c", 0⟩] := by
  refine ⟨fun W dst => ?_, fun W dst => ?_, rfl, rfl⟩
  · induction dst with
    | nil => intro src; simp [copy_weights, copy_weights_loop]
    | cons d ds ih =>
      intro src
      cases src with
      | nil => simp [copy_weights, copy_weights_loop]
      | cons s ss =>
        by_cases h : d.name = s.name <;>
          simp [copy_weights, copy_weights_loop, h, ← ih ss, copy_weights]
  · induction dst with
    | nil => intro src; simp [copy_weights, copy_weights_loop]
    | cons d ds ih =>
      intro src
      cases src with
      | nil => simp [copy_weights, copy_weights_loop]
      | cons s ss =>
        by_cases h : d.name = s.name
        · simp [copy_weights, copy_weights_loop, h, List.takeWhile_cons, ← ih ss,
            copy_weights]
        · simp [copy_weights, copy_weights_loop, h, List.takeWhile_cons]

/-! ## Theorems about injection -/

/-- C6 (code bug): an injection whose anchor exists but whose template batch
is empty does not complete as a no-op.  The inner loop never runs, so
`last_new_layer` is never assigned, and the function raises
`UnboundLocalError` — here at the first post-anchor layer's relinking step.
Evaluating the code at the failing input `inject_layers [A, B] [] "A"`: -/
theorem inject_empty_batch_raises :
    inject_layers [exA, exB] [] "A" "u" = .error unboundMsg
    ∧ inject_layers [exA] [] "A" "u" = .error unboundMsg := ⟨rfl, rfl⟩

/-- C7 (counterexample): on a graph with no node named `Z`, `inject_layers`
does not silently return — the scan completes without inserting anything
(`injectLoop` yields the unchanged layer list and an unassigned
`last_new_layer`), and the trailing `return last_new_layer` then raises
`UnboundLocalError`. -/
theorem inject_missing_anchor_counterexample :
    injectLoop [exX] "Z" "u" [exA, exB] = .ok ([exA, exB], none)
    ∧ inject_layers [exA, exB] [exX] "Z" "u" = .error unboundMsg := ⟨rfl, rfl⟩

/-- C7 (amended): whenever no layer bears the anchor name, the scan completes
having performed no insertion — the rebuilt layer list is exactly the input —
but the call then raises `UnboundLocalError` at `return last_new_layer`
instead of silently returning. -/
theorem inject_missing_anchor_raises :
    ∀ (layers additional : List Layer) (pred uuid : String),
      (∀ l ∈ layers, l.name ≠ pred) →
      injectLoop additional pred uuid layers = .ok (layers, none)
      ∧ inject_layers layers additional pred uuid = .error unboundMsg := by
  intro layers additional pred uuid h
  have hloop : injectLoop additional pred uuid layers = .ok (layers, none) := by
    induction layers with
    | nil => rfl
    | cons l rest ih =>
      have hl : ¬ l.name = pred := h l (List.mem_cons_self l rest)
      have hrest : ∀ m ∈ rest, m.name ≠ pred := fun m hm => h m (List.mem_cons_of_mem l hm)
      simp only [injectLoop, if_neg hl, ih hrest]
  exact ⟨hloop, by simp only [inject_layers, hloop]⟩

/-- Witness for `inject_missing_anchor_raises` at the concrete graph
`[A, B, C]` and anchor name `Q`. -/
theorem inject_missing_anchor_raises_witness :
    (∀ l ∈ [exA, exB, exC], l.name ≠ "Q")
    ∧ injectLoop [exX, exY] "Q" "u" [exA, exB, exC] = .ok ([exA, exB, exC], none)
    ∧ inject_layers [exA, exB, exC] [exX, exY] "Q" "u" = .error unboundMsg := by
  have h : ∀ l ∈ [exA, exB, exC], l.name ≠ "Q" := by decide
  exact ⟨h, (inject_missing_anchor_raises [exA, exB, exC] [exX, exY] "Q" "u" h).1,
    (inject_missing_anchor_raises [exA, exB, exC] [exX, exY] "Q" "u" h).2⟩

/-- A nonempty template batch always assigns `last_new_layer`: the inner loop
returns the inserted layers together with the name of the last of them. -/
theorem insertLoop_last {u : String} :
    ∀ (ls : List Layer) (i : Nat) (maps : List (String × String)) (l0 : Option String),
      ls ≠ [] →
      ∃ mid t, insertLoop u ls i maps l0 = (mid, some t)
        ∧ mid ≠ [] ∧ mid.getLast?.map Layer.name = some t := by
  intro ls
  induction ls with
  | nil => intro _ _ _ h; exact absurd rfl h
  | cons l rest ih =>
    intro i maps l0 _
    cases rest with
    | nil => exact ⟨[renameLayer u i maps l], genName l.name u i, rfl, by simp, rfl⟩
    | cons h2 tl =>
      obtain ⟨mid', t, hr, hne, hlast⟩ :=
        ih (i + 1) (dictInsert maps l.name (genName l.name u i))
          (some (genName l.name u i)) (List.cons_ne_nil h2 tl)
      have h1 : (insertLoop u (h2 :: tl) (i + 1)
          (dictInsert maps l.name (genName l.name u i))
          (some (genName l.name u i))).1 = mid' := by rw [hr]
      have h2' : (insertLoop u (h2 :: tl) (i + 1)
          (dictInsert maps l.name (genName l.name u i))
          (some (genName l.name u i))).2 = some t := by rw [hr]
      refine ⟨renameLayer u i maps l :: mid', t, ?_, List.cons_ne_nil _ _, ?_⟩
      · rw [← h1, ← h2']
        exact rfl
      · cases mid' with
        | nil => exact absurd rfl hne
        | cons m ms => rw [List.getLast?_cons_cons]; exact hlast

/-- C1: when the anchor exists and the template batch is nonempty, injection
leaves every layer before and including the anchor unchanged, inserts the
renamed batch right after the anchor, and rewrites — in every original layer
after the anchor, and only there — exactly those inbound entries that equal
the anchor's name, re-pointing them at the tail `t`, the generated name of
the last inserted layer.  The final conjunct checks the spec's worked
example: `A -> B -> C` with `[X, Y]` injected after `A` becomes
`A -> X' -> Y' -> B -> C` with `B.inbound == [Y']`. -/
theorem inject_relinks_downstream :
    (∀ (pre suf additional : List Layer) (anchor : Layer) (uuid : String),
      (∀ l ∈ pre, l.name ≠ anchor.name) → additional ≠ [] →
      ∃ mid t, insertResult additional anchor.name uuid = (mid, some t)
        ∧ mid.getLast?.map Layer.name = some t
        ∧ inject_layers (pre ++ anchor :: suf) additional anchor.name uuid =
            .ok (pre ++ anchor :: (mid ++ suf.map fun m =>
              { m with inbound := replace_inbound_layer m.inbound anchor.name t }), t))
    ∧ inject_layers [exA, exB, exC] [exX, exY] "A" "u" =
        .ok ([exA,
              ⟨"autogenerated-X-u-0", "autogenerated-X-u-0", ["A"]⟩,
              ⟨"autogenerated-Y-u-1", "autogenerated-Y-u-1", ["autogenerated-X-u-0"]⟩,
              ⟨"B", "B", ["autogenerated-Y-u-1"]⟩, exC], "autogenerated-Y-u-1") := by
  constructor
  · intro pre suf additional anchor uuid hpre hadd
    obtain ⟨mid, t, hins, _, hlast⟩ :=
      insertLoop_last additional 0 [("PREDECESSOR", anchor.name)] none hadd
    have hloop : injectLoop additional anchor.name uuid (pre ++ anchor :: suf) =
        .ok (pre ++ anchor :: (mid ++ suf.map fun m =>
          { m with inbound := replace_inbound_layer m.inbound anchor.name t }), some t) := by
      induction pre with
      | nil =>
        rw [List.nil_append, List.nil_append, injectLoop, if_pos rfl]
        rw [show insertResult additional anchor.name uuid = (mid, some t) from hins]
      | cons p ps ihp =>
        have hp : ¬ p.name = anchor.name := hpre p (List.mem_cons_self p ps)
        rw [List.cons_append, injectLoop, if_neg hp,
          ihp (fun l hl => hpre l (List.mem_cons_of_mem p hl)) hins, List.cons_append]
    exact ⟨mid, t, hins, hlast, by rw [inject_layers, hloop]⟩
  · rfl

/-- Witness for `inject_relinks_downstream` at the spec's worked example
graph `A -> B -> C`, template batch `[X, Y]`, injection identifier `u`. -/
theorem inject_relinks_downstream_witness :
    ((∀ l ∈ ([] : List Layer), l.name ≠ exA.name) ∧ [exX, exY] ≠ [])
    ∧ ∃ mid t, insertResult [exX, exY] exA.name "u" = (mid, some t)
        ∧ mid.getLast?.map Layer.name = some t
        ∧ inject_layers ([] ++ exA :: [exB, exC]) [exX, exY] exA.name "u" =
            .ok ([] ++ exA :: (mid ++ [exB, exC].map fun m =>
              { m with inbound := replace_inbound_layer m.inbound exA.name t }), t) :=
  ⟨⟨by simp, by simp⟩,
    inject_relinks_downstream.1 [] [exB, exC] [exX, exY] exA "u" (by simp) (by simp)⟩

/-! ## Schedule lemmas: descending key order and greatest-match lookup -/

theorem mem_insertDesc {x a : Nat} : ∀ {l : List Nat},
    x ∈ insertDesc a l ↔ x = a ∨ x ∈ l := by
  intro l
  induction l with
  | nil => simp [insertDesc]
  | cons y ys ih =>
    by_cases h2 : y < a
    · simp [insertDesc, h2, ih]
    · simp [insertDesc, h2, ih]
      tauto

theorem mem_sortedDesc {x : Nat} : ∀ {l : List Nat}, x ∈ sortedDesc l ↔ x ∈ l := by
  intro l
  induction l with
  | nil => simp [sortedDesc]
  | cons y ys ih => simp [sortedDesc, mem_insertDesc, ih]

theorem pairwise_insertDesc {a : Nat} : ∀ {l : List Nat},
    l.Pairwise (· ≥ ·) → (insertDesc a l).Pairwise (· ≥ ·) := by
  intro l
  induction l with
  | nil => intro _; simp [insertDesc]
  | cons y ys ih =>
    intro hp
    rw [List.pairwise_cons] at hp
    by_cases h : y < a
    · rw [insertDesc, if_pos h, List.pairwise_cons]
      refine ⟨fun b hb => ?_, List.pairwise_cons.mpr hp⟩
      rcases List.mem_cons.mp hb with rfl | hb
      · omega
      · exact Nat.le_trans (hp.1 b hb) (Nat.le_of_lt h)
    · rw [insertDesc, if_neg h, List.pairwise_cons]
      refine ⟨fun b hb => ?_, ih hp.2⟩
      rcases mem_insertDesc.mp hb with rfl | hb
      · omega
      · exact hp.1 b hb

theorem sortedDesc_pairwise : ∀ (l : List Nat), (sortedDesc l).Pairwise (· ≥ ·) := by
  intro l
  induction l with
  | nil => simp [sortedDesc]
  | cons y ys ih => exact pairwise_insertDesc ih

/-- On a descending-sorted key list, the first key `≤ e` found by the scan is
the greatest key `≤ e` in the list. -/
theorem find_desc_max {e t : Nat} : ∀ {l : List Nat},
    l.Pairwise (· ≥ ·) →
    l.find? (fun t => decide (t ≤ e)) = some t →
    t ∈ l ∧ t ≤ e ∧ ∀ t' ∈ l, t' ≤ e → t' ≤ t := by
  intro l
  induction l with
  | nil => intro _ h; simp [List.find?] at h
  | cons c rest ih =>
    intro hp hf
    rw [List.pairwise_cons] at hp
    by_cases hc : c ≤ e
    · rw [List.find?_cons_of_pos _ (by simpa using hc)] at hf
      obtain rfl : c = t := by simpa using hf
      refine ⟨List.mem_cons_self c rest, hc, fun t' ht' _ => ?_⟩
      rcases List.mem_cons.mp ht' with rfl | ht'
      · exact Nat.le_refl t'
      · exact hp.1 t' ht'
    · rw [List.find?_cons_of_neg _ (by simpa using hc)] at hf
      obtain ⟨hmem, hle, hmax⟩ := ih hp.2 hf
      refine ⟨List.mem_cons_of_mem c hmem, hle, fun t' ht' ht'e => ?_⟩
      rcases List.mem_cons.mp ht' with rfl | ht'
      · omega
      · exact hmax t' ht' ht'e

theorem lookup_mem {β : Type} {t : Nat} {c : β} : ∀ {m : List (Nat × β)},
    m.lookup t = some c → (t, c) ∈ m := by
  intro m
  induction m with
  | nil => intro h; simp at h
  | cons p rest ih =>
    intro h
    obtain ⟨k, v⟩ := p
    rw [List.lookup_cons] at h
    split at h
    · rename_i heq
      obtain rfl : t = k := by simpa using heq
      obtain rfl : v = c := by simpa using h
      exact List.mem_cons_self _ _
    · exact List.mem_cons_of_mem _ (ih h)

theorem mem_keys_lookup {β : Type} {t : Nat} : ∀ {m : List (Nat × β)},
    t ∈ m.map Prod.fst → ∃ c, m.lookup t = some c := by
  intro m
  induction m with
  | nil => intro h; simp at h
  | cons p rest ih =>
    intro h
    obtain ⟨k, v⟩ := p
    rw [List.lookup_cons]
    by_cases hk : t = k
    · subst hk; exact ⟨v, by simp⟩
    · have hne : (t == k) = false := by simpa using hk
      rw [List.map_cons] at h
      rcases List.mem_cons.mp h with h1 | h2
      · exact absurd (by simpa using h1) hk
      · obtain ⟨c, hc⟩ := ih h2
        refine ⟨c, ?_⟩
        simp only [hne]
        exact hc

/-- When a key `≤ e` exists, `dict_scheduler` returns the value stored under
the greatest key `≤ e`. -/
theorem dict_scheduler_max {β : Type} {m : List (Nat × β)} {e : Nat}
    (hex : ∃ t ∈ m.map Prod.fst, t ≤ e) :
    ∃ t c, (t, c) ∈ m ∧ t ≤ e ∧ (∀ t' ∈ m.map Prod.fst, t' ≤ e → t' ≤ t)
      ∧ m.lookup t = some c ∧ dict_scheduler m e = some c := by
  obtain ⟨t0, ht0m, ht0e⟩ := hex
  have hsome : ((sortedDesc (m.map Prod.fst)).find? (fun t => decide (t ≤ e))).isSome := by
    rw [List.find?_isSome]
    exact ⟨t0, mem_sortedDesc.mpr ht0m, by simpa using ht0e⟩
  obtain ⟨t, hfind⟩ := Option.isSome_iff_exists.mp hsome
  obtain ⟨htmem, hte, hmax⟩ := find_desc_max (sortedDesc_pairwise _) hfind
  obtain ⟨c, hc⟩ := mem_keys_lookup (mem_sortedDesc.mp htmem)
  refine ⟨t, c, lookup_mem hc, hte, fun t' ht' ht'e => hmax t' (mem_sortedDesc.mpr ht') ht'e,
    hc, ?_⟩
  rw [dict_scheduler, hfind]
  exact hc

/-- When every key exceeds `e`, the scan falls through and returns `None`. -/
theorem dict_scheduler_none {β : Type} {m : List (Nat × β)} {e : Nat}
    (h : ∀ t ∈ m.map Prod.fst, ¬ t ≤ e) :
    dict_scheduler m e = none := by
  have : (sortedDesc (m.map Prod.fst)).find? (fun t => decide (t ≤ e)) = none := by
    rw [List.find?_eq_none]
    intro x hx
    simpa using h x (mem_sortedDesc.mp hx)
  rw [dict_scheduler, this]

theorem buildOptimizers_keys {V : Type} :
    ∀ {mp : List (Nat × OptSpec V)} {opts : List (Nat × Optimizer V)},
      buildOptimizers mp = .ok opts → opts.map Prod.fst = mp.map Prod.fst := by
  intro mp
  induction mp with
  | nil => intro opts h; cases h; rfl
  | cons p rest ih =>
    intro opts h
    obtain ⟨t, c⟩ := p
    rw [buildOptimizers] at h
    split at h
    · cases h
    · split at h
      · cases h
      · rename_i o _ os hos
        cases h
        simp [ih hos]

theorem buildOptimizers_lookup {V : Type} :
    ∀ {mp : List (Nat × OptSpec V)} {opts : List (Nat × Optimizer V)},
      buildOptimizers mp = .ok opts →
      ∀ {t : Nat} {c : OptSpec V}, mp.lookup t = some c →
        ∃ o, deserializeOpt c = .ok o ∧ opts.lookup t = some o := by
  intro mp
  induction mp with
  | nil => intro opts h t c hl; simp at hl
  | cons p rest ih =>
    intro opts h t c hl
    obtain ⟨k, v⟩ := p
    rw [buildOptimizers] at h
    cases hdes : deserializeOpt v with
    | error er => rw [hdes] at h; cases h
    | ok o =>
      rw [hdes] at h
      cases hbuild : buildOptimizers rest with
      | error er => rw [hbuild] at h; cases h
      | ok os =>
        rw [hbuild] at h
        cases h
        have ho : deserializeOpt v = .ok o := hdes
        have hos : buildOptimizers rest = .ok os := hbuild
        rw [List.lookup_cons] at hl
        by_cases hk : t = k
        · subst hk
          simp only [beq_self_eq_true] at hl
          obtain rfl : v = c := by simpa using hl
          exact ⟨o, ho, by rw [List.lookup_cons]; simp⟩
        · have hne : (t == k) = false := by simpa using hk
          simp only [hne] at hl
          obtain ⟨o', ho', hlo'⟩ := ih hos hl
          refine ⟨o', ho', ?_⟩
          rw [List.lookup_cons]
          simp only [hne]
          exact hlo'

theorem mkSchedule_table_ok {V : Type} {mp : List (Nat × OptSpec V)} {ep : Nat}
    {s : Schedule V} (h : mkSchedule (.table mp) ep = .ok s) :
    s.params = mp ∧ buildOptimizers mp = .ok s.optimizers ∧ s.epochs = ep := by
  rw [mkSchedule] at h
  split at h
  · cases h
  · rename_i opts hopts
    cases h
    exact ⟨rfl, hopts, rfl⟩

/-- C2: subscripting a schedule with an epoch that some threshold covers
returns the optimizer deserialized from the entry whose threshold is the
greatest one `≤ epoch`.  The second conjunct checks the spec's example
thresholds `{0: cfgA, 5: cfgB, 10: cfgC}`: every epoch below 5 selects
`cfgA`, epochs 5–9 select `cfgB`, and every epoch from 10 on selects
`cfgC`. -/
theorem optimizer_lookup_greatest_threshold :
    (∀ (V : Type) (mp : List (Nat × OptSpec V)) (ep e : Nat) (s : Schedule V),
      mkSchedule (.table mp) ep = .ok s →
      (∃ t ∈ mp.map Prod.fst, t ≤ e) →
      ∃ t c o, (t, c) ∈ mp ∧ t ≤ e ∧ (∀ t' ∈ mp.map Prod.fst, t' ≤ e → t' ≤ t)
        ∧ deserializeOpt c = .ok o ∧ opt_getitem s e = some o)
    ∧ (∀ e : Nat, opt_getitem exSched e =
        some (if e < 5 then ⟨exCfgA⟩ else if e < 10 then ⟨exCfgB⟩ else ⟨exCfgC⟩)) := by
  constructor
  · intro V mp ep e s hs hex
    obtain ⟨hparams, hbuild, _⟩ := mkSchedule_table_ok hs
    have hkeys : s.optimizers.map Prod.fst = mp.map Prod.fst := buildOptimizers_keys hbuild
    have hex' : ∃ t ∈ s.optimizers.map Prod.fst, t ≤ e := by rw [hkeys]; exact hex
    obtain ⟨t, o, _, hte, hmax, hlo, hsched⟩ := dict_scheduler_max hex'
    have htk : t ∈ mp.map Prod.fst := by
      rw [← hkeys]
      exact List.mem_map.mpr ⟨(t, o), lookup_mem hlo, rfl⟩
    obtain ⟨c, hc⟩ := mem_keys_lookup htk
    obtain ⟨o', ho', hlo'⟩ := buildOptimizers_lookup hbuild hc
    have hoo : o' = o := by rw [hlo'] at hlo; exact Option.some.inj hlo
    refine ⟨t, c, o', lookup_mem hc, hte, ?_, ho', ?_⟩
    · intro t' ht' ht'e
      exact hmax t' (by rw [hkeys]; exact ht') ht'e
    · rw [hoo]
      exact hsched
  · intro e
    have hs : sortedDesc (exSched.optimizers.map Prod.fst) = [10, 5, 0] := rfl
    rcases Nat.lt_or_ge e 5 with h5 | h5
    · have hf : (sortedDesc (exSched.optimizers.map Prod.fst)).find?
          (fun t => decide (t ≤ e)) = some 0 := by
        rw [hs, List.find?_cons_of_neg _ (by simpa using (by omega : ¬ 10 ≤ e)),
          List.find?_cons_of_neg _ (by simpa using (by omega : ¬ 5 ≤ e)),
          List.find?_cons_of_pos _ (by simp)]
      rw [opt_getitem, dict_scheduler, hf, if_pos h5]
      rfl
    · rcases Nat.lt_or_ge e 10 with h10 | h10
      · have hf : (sortedDesc (exSched.optimizers.map Prod.fst)).find?
            (fun t => decide (t ≤ e)) = some 5 := by
          rw [hs, List.find?_cons_of_neg _ (by simpa using (by omega : ¬ 10 ≤ e)),
            List.find?_cons_of_pos _ (by simpa using h5)]
        rw [opt_getitem, dict_scheduler, hf, if_neg (by omega), if_pos h10]
        rfl
      · have hf : (sortedDesc (exSched.optimizers.map Prod.fst)).find?
            (fun t => decide (t ≤ e)) = some 10 := by
          rw [hs, List.find?_cons_of_pos _ (by simpa using h10)]
        rw [opt_getitem, dict_scheduler, hf, if_neg (by omega), if_neg (by omega)]
        rfl

/-- Witness for `optimizer_lookup_greatest_threshold` at the example table
and epoch 7. -/
theorem optimizer_lookup_greatest_threshold_witness :
    (mkSchedule (.table [(0, exCfgA), (5, exCfgB), (10, exCfgC)]) 20 = .ok exSched
      ∧ (∃ t ∈ [(0, exCfgA), (5, exCfgB), (10, exCfgC)].map Prod.fst, t ≤ 7))
    ∧ (∃ t c o, (t, c) ∈ [(0, exCfgA), (5, exCfgB), (10, exCfgC)] ∧ t ≤ 7
        ∧ (∀ t' ∈ [(0, exCfgA), (5, exCfgB), (10, exCfgC)].map Prod.fst, t' ≤ 7 → t' ≤ t)
        ∧ deserializeOpt c = .ok o ∧ opt_getitem exSched 7 = some o) :=
  ⟨⟨rfl, ⟨5, by decide⟩⟩,
    optimizer_lookup_greatest_threshold.1 Nat
      [(0, exCfgA), (5, exCfgB), (10, exCfgC)] 20 7 exSched rfl ⟨5, by decide⟩⟩

/-- C8 (counterexample): constructing an `OptimizerSchedule` from the
threshold table `{5: cfgB}` — which has no threshold-0 entry — does not fail:
it returns a fully built schedule, and the gap surfaces only at lookup time
(epoch 0 finds no optimizer while epoch 5 does). -/
theorem schedule_gap_counterexample :
    mkSchedule (.table [(5, exCfgB)]) 20 = .ok exSchedGap
    ∧ opt_getitem exSchedGap 0 = none
    ∧ opt_getitem exSchedGap 5 = some ⟨exCfgB⟩ := ⟨rfl, rfl, rfl⟩

/-- C8 (amended): construction performs no threshold-0 validation at all —
for every table it simply deserializes the entries (failing only if an
entry's nested learning-rate dict is empty) — and a missing threshold-0 entry
surfaces only at lookup time, epoch 0 then finding no optimizer. -/
theorem schedule_no_construction_validation :
    ∀ (V : Type) (mp : List (Nat × OptSpec V)) (ep : Nat),
      (mkSchedule (.table mp) ep =
        match buildOptimizers mp with
        | .ok opts => .ok ⟨mp, opts, ep⟩
        | .error er => .error er)
      ∧ (∀ s, mkSchedule (.table mp) ep = .ok s →
          (∀ t ∈ mp.map Prod.fst, 0 < t) → opt_getitem s 0 = none) := by
  intro V mp ep
  constructor
  · rw [mkSchedule]
    cases buildOptimizers mp <;> rfl
  · intro s hs hpos
    obtain ⟨_, hbuild, _⟩ := mkSchedule_table_ok hs
    apply dict_scheduler_none
    intro t ht
    have : t ∈ mp.map Prod.fst := by rw [← buildOptimizers_keys hbuild]; exact ht
    have := hpos t this
    omega

/-- Witness for `schedule_no_construction_validation` at the gap table
`{5: cfgB}`. -/
theorem schedule_no_construction_validation_witness :
    (mkSchedule (.table [(5, exCfgB)]) 20 = .ok exSchedGap
      ∧ (∀ t ∈ [(5, exCfgB)].map Prod.fst, 0 < t))
    ∧ opt_getitem exSchedGap 0 = none :=
  ⟨⟨rfl, by decide⟩,
    (schedule_no_construction_validation Nat [(5, exCfgB)] 20).2 exSchedGap rfl (by decide)⟩

/-- C10: when every declared threshold exceeds the epoch — in particular for
every epoch below a positive smallest threshold — subscripting the schedule
returns `None`: no error is raised and no declared entry is used as a
fallback. -/
theorem below_min_threshold_lookup_none :
    ∀ (V : Type) (mp : List (Nat × OptSpec V)) (ep : Nat) (s : Schedule V) (t e : Nat),
      mkSchedule (.table mp) ep = .ok s →
      t ∈ mp.map Prod.fst → (∀ t' ∈ mp.map Prod.fst, t ≤ t') →
      0 < t → e < t →
      opt_getitem s e = none := by
  intro V mp ep s t e hs htm hmin _ het
  obtain ⟨_, hbuild, _⟩ := mkSchedule_table_ok hs
  apply dict_scheduler_none
  intro t' ht'
  have ht'mp : t' ∈ mp.map Prod.fst := by
    rw [← buildOptimizers_keys hbuild]; exact ht'
  have := hmin t' ht'mp
  omega

/-! ## The learning-rate scheduler -/

theorem lr_fold_no_match {V : Type} {e : Nat} :
    ∀ (m : List (Nat × V)) (acc : Option V), (∀ p ∈ m, ¬ p.1 ≤ e) →
      m.foldl (fun acc p => if p.1 ≤ e then some p.2 else acc) acc = acc := by
  intro m
  induction m with
  | nil => intro acc _; rfl
  | cons q rest ih =>
    intro acc h
    rw [List.foldl_cons, if_neg (h q (List.mem_cons_self q rest))]
    exact ih acc fun p hp => h p (List.mem_cons_of_mem q hp)

/-- On a learning-rate dict whose keys are listed in strictly ascending
order, the listed-order loop of `_lr_scheduler` ends holding the value of the
greatest threshold `≤ epoch`. -/
theorem lr_fold_max {V : Type} {e t : Nat} {v : V} :
    ∀ (m : List (Nat × V)) (acc : Option V),
      List.Pairwise (fun q r => q.1 < r.1) m →
      (t, v) ∈ m → t ≤ e →
      (∀ t' ∈ m.map Prod.fst, t' ≤ e → t' ≤ t) →
      m.foldl (fun acc p => if p.1 ≤ e then some p.2 else acc) acc = some v := by
  intro m
  induction m with
  | nil => intro acc _ hm; simp at hm
  | cons q rest ih =>
    intro acc hp hm hte hmax
    rw [List.pairwise_cons] at hp
    rcases List.mem_cons.mp hm with heq | hm
    · obtain rfl : q = (t, v) := heq.symm
      rw [List.foldl_cons, if_pos hte]
      apply lr_fold_no_match
      intro p hpmem hple
      have h1 : t < p.1 := hp.1 p hpmem
      have h2 : p.1 ≤ t :=
        hmax p.1 (List.mem_map.mpr ⟨p, List.mem_cons_of_mem (t, v) hpmem, rfl⟩) hple
      omega
    · rw [List.foldl_cons]
      refine ih _ hp.2 hm hte ?_
      intro t' ht' ht'e
      refine hmax t' ?_ ht'e
      rw [List.map_cons]
      exact List.mem_cons_of_mem _ ht'

/-- C3 (counterexample): with the nested learning-rate dict listed as
`{3: 1, 0: 2}` the greatest threshold `≤ 5` is 3, whose value is 1 — but
`_lr_scheduler(5)` returns 2, the value of the *last listed* matching entry
(threshold 0).  The nested resolution therefore does depend on the order in
which the nested map's keys are listed, contradicting the claim. -/
theorem lr_nested_order_counterexample :
    lr_scheduler ceParams 5 = .ok (some 2)
    ∧ (3, 1) ∈ ceLRDict ∧ (3 : Nat) ≤ 5
    ∧ (∀ t' ∈ ceLRDict.map Prod.fst, t' ≤ 5 → t' ≤ 3)
    ∧ (2 : Nat) ≠ 1 :=
  ⟨rfl, by decide, by decide, by decide, by decide⟩

/-- C3 (amended): `_lr_scheduler` selects the top-level entry by the
greatest-threshold-`≤`-epoch rule; a scalar learning rate is returned
directly, while a nested dict is resolved by a loop in *listed* order that
keeps the value of the last listed entry whose threshold is `≤ epoch`.  Only
when the nested keys are listed in ascending order does this coincide with
the greatest-threshold-`≤`-epoch rule, as in the spec's example. -/
theorem lr_resolution_listed_order :
    ∀ (V : Type) (params : List (Nat × OptSpec V)) (e : Nat) (p : OptSpec V),
      dict_scheduler params e = some p →
      (∀ v, p.lr = .scalar v → lr_scheduler params e = .ok (some v))
      ∧ (∀ m, p.lr = .sched m → lr_scheduler params e = .ok (lr_last m e))
      ∧ (∀ m t v, p.lr = .sched m →
          List.Pairwise (fun q r => q.1 < r.1) m →
          (t, v) ∈ m → t ≤ e → (∀ t' ∈ m.map Prod.fst, t' ≤ e → t' ≤ t) →
          lr_scheduler params e = .ok (some v)) := by
  intro V params e p hsel
  refine ⟨fun v hv => ?_, fun m hm => ?_, fun m t v hm hasc hmem hte hmax => ?_⟩
  · simp only [lr_scheduler, hsel, hv]
  · simp only [lr_scheduler, hsel, hm]
  · simp only [lr_scheduler, hsel, hm]
    rw [show lr_last m e = some v from lr_fold_max m none hasc hmem hte hmax]

/-- Witness for `lr_resolution_listed_order` at the spec's example:
`learningRateFor(2) = 0.1`, `learningRateFor(3) = 0.01`,
`learningRateFor(100) = 0.01`. -/
theorem lr_resolution_listed_order_witness :
    (dict_scheduler exLRParams 2 = some ⟨"sgd", .sched exLRDict⟩
      ∧ dict_scheduler exLRParams 3 = some ⟨"sgd", .sched exLRDict⟩
      ∧ dict_scheduler exLRParams 100 = some ⟨"sgd", .sched exLRDict⟩)
    ∧ lr_scheduler exLRParams 2 = .ok (some (1/10))
    ∧ lr_scheduler exLRParams 3 = .ok (some (1/100))
    ∧ lr_scheduler exLRParams 100 = .ok (some (1/100)) :=
  ⟨⟨rfl, rfl, rfl⟩,
    (lr_resolution_listed_order ℚ exLRParams 2 ⟨"sgd", .sched exLRDict⟩ rfl).2.2
      exLRDict 0 (1/10) rfl (by decide) (List.mem_cons_self _ _) (by decide) (by decide),
    (lr_resolution_listed_order ℚ exLRParams 3 ⟨"sgd", .sched exLRDict⟩ rfl).2.2
      exLRDict 3 (1/100) rfl (by decide)
      (List.mem_cons_of_mem _ (List.mem_cons_self _ _)) (by decide) (by decide),
    (lr_resolution_listed_order ℚ exLRParams 100 ⟨"sgd", .sched exLRDict⟩ rfl).2.2
      exLRDict 3 (1/100) rfl (by decide)
      (List.mem_cons_of_mem _ (List.mem_cons_self _ _)) (by decide) (by decide)⟩

/-- Witness for `below_min_threshold_lookup_none` at the gap table `{5:
cfgB}` and epoch 3. -/
theorem below_min_threshold_lookup_none_witness :
    (mkSchedule (.table [(5, exCfgB)]) 20 = .ok exSchedGap
      ∧ (5 : Nat) ∈ [(5, exCfgB)].map Prod.fst
      ∧ (∀ t' ∈ [(5, exCfgB)].map Prod.fst, 5 ≤ t') ∧ (0 : Nat) < 5 ∧ (3 : Nat) < 5)
    ∧ opt_getitem exSchedGap 3 = none :=
  ⟨⟨rfl, by decide, by decide, by decide, by decide⟩,
    below_min_threshold_lookup_none Nat [(5, exCfgB)] 20 exSchedGap 5 3 rfl
      (by decide) (by decide) (by decide) (by decide)⟩

/-! ## Uniqueness of generated layer names

The generated name is `"autogenerated-" ++ base ++ "-" ++ uuid ++ "-" ++
str(i)`.  Reading it from the right: the final dash-free segment is the
decimal batch position, the fixed-width segment before it is the injection
identifier (a `uuid1` rendering always has the same string length), so two
generated names agree only if their identifiers and batch positions do. -/

theorem decDigits_ne_nil (n : Nat) : decDigits n ≠ [] := by
  rw [decDigits]
  by_cases h : n < 10
  · rw [dif_pos h]; simp
  · rw [dif_neg h]; simp

theorem decDigits_isDigit : ∀ (n : Nat), ∀ c ∈ decDigits n, c.isDigit = true := by
  intro n
  induction n using Nat.strong_induction_on with
  | _ n ih =>
    intro c hc
    rw [decDigits] at hc
    have hd : ∀ m < 10, (Nat.digitChar m).isDigit = true := by decide
    by_cases h : n < 10
    · rw [dif_pos h] at hc
      obtain rfl : c = Nat.digitChar n := by simpa using hc
      exact hd n h
    · rw [dif_neg h] at hc
      rcases List.mem_append.mp hc with h1 | h2
      · exact ih (n / 10) (Nat.div_lt_self (by omega) (by omega)) c h1
      · obtain rfl : c = Nat.digitChar (n % 10) := by simpa using h2
        exact hd (n % 10) (by omega)

theorem decDigits_concat (n : Nat) :
    decDigits n = (if n < 10 then [] else decDigits (n / 10))
      ++ [Nat.digitChar (n % 10)] := by
  rw [decDigits]
  by_cases h : n < 10
  · rw [dif_pos h, if_pos h, Nat.mod_eq_of_lt h]
    rfl
  · rw [dif_neg h, if_neg h]

theorem decDigits_inj : ∀ (a b : Nat), decDigits a = decDigits b → a = b := by
  intro a
  induction a using Nat.strong_induction_on with
  | _ a ih =>
    intro b h
    rw [decDigits_concat a, decDigits_concat b] at h
    obtain ⟨h1, h2⟩ := List.append_inj' h (by rfl)
    have hdc : ∀ m < 10, ∀ k < 10, Nat.digitChar m = Nat.digitChar k → m = k := by decide
    have hmod : a % 10 = b % 10 :=
      hdc (a % 10) (by omega) (b % 10) (by omega) (by simpa using h2)
    by_cases ha : a < 10 <;> by_cases hb : b < 10
    · rw [Nat.mod_eq_of_lt ha, Nat.mod_eq_of_lt hb] at hmod
      exact hmod
    · rw [if_pos ha, if_neg hb] at h1
      exact absurd h1.symm (decDigits_ne_nil (b / 10))
    · rw [if_neg ha, if_pos hb] at h1
      exact absurd h1 (decDigits_ne_nil (a / 10))
    · rw [if_neg ha, if_neg hb] at h1
      have hdiv : a / 10 = b / 10 :=
        ih (a / 10) (Nat.div_lt_self (by omega) (by omega)) (b / 10) h1
      omega

theorem toDigitsCore_eq_decDigits :
    ∀ (fuel n : Nat) (acc : List Char), n < fuel →
      Nat.toDigitsCore 10 fuel n acc = decDigits n ++ acc := by
  intro fuel
  induction fuel with
  | zero => intro n acc h; exact absurd h (Nat.not_lt_zero n)
  | succ f ih =>
    intro n acc h
    simp only [Nat.toDigitsCore]
    by_cases h0 : n / 10 = 0
    · have hn : n < 10 := by omega
      rw [if_pos h0, decDigits, dif_pos hn, Nat.mod_eq_of_lt hn]
      rfl
    · have hn : ¬ n < 10 := by omega
      rw [if_neg h0, ih (n / 10) _ (by omega)]
      conv_rhs => rw [decDigits]
      rw [dif_neg hn, List.append_assoc]
      rfl

theorem repr_data (n : Nat) : (Nat.repr n).data = decDigits n := by
  show (Nat.toDigits 10 n).asString.data = decDigits n
  rw [Nat.toDigits, toDigitsCore_eq_decDigits (n + 1) n [] (Nat.lt_succ_self n)]
  simp [List.asString]

theorem repr_no_dash (n : Nat) : ∀ c ∈ (Nat.repr n).data, c ≠ '-' := by
  intro c hc
  rw [repr_data] at hc
  have := decDigits_isDigit n c hc
  intro hcon
  rw [hcon] at this
  simp [Char.isDigit] at this

/-- Splitting two equal character lists at the last dash: when the parts in
front of a dash are dash-free, both the fronts and the tails agree. -/
theorem splitLastDash : ∀ (x1 y1 x2 y2 : List Char),
    (∀ c ∈ x1, c ≠ '-') → (∀ c ∈ x2, c ≠ '-') →
    x1 ++ '-' :: y1 = x2 ++ '-' :: y2 → x1 = x2 ∧ y1 = y2 := by
  intro x1
  induction x1 with
  | nil =>
    intro y1 x2 y2 _ hx2 heq
    cases x2 with
    | nil => simpa using heq
    | cons c cs =>
      rw [List.nil_append, List.cons_append] at heq
      obtain ⟨h1, h2⟩ := List.cons.inj heq
      exact absurd h1.symm (hx2 c (List.mem_cons_self c cs))
  | cons c cs ih =>
    intro y1 x2 y2 hx1 hx2 heq
    cases x2 with
    | nil =>
      rw [List.cons_append, List.nil_append] at heq
      obtain ⟨h1, _⟩ := List.cons.inj heq
      exact absurd h1 (hx1 c (List.mem_cons_self c cs))
    | cons d ds =>
      rw [List.cons_append, List.cons_append] at heq
      obtain ⟨h1, h2⟩ := List.cons.inj heq
      obtain ⟨ha, hb⟩ := ih y1 ds y2 (fun a hha => hx1 a (List.mem_cons_of_mem c hha))
        (fun a hha => hx2 a (List.mem_cons_of_mem d hha)) h2
      exact ⟨by rw [h1, ha], hb⟩

theorem str_length_data (s : String) : s.data.length = s.length := by
  cases s; rfl

/-- Two generated names built with equal-length injection identifiers agree
only if the identifiers and the batch positions agree. -/
theorem genName_inj {b1 b2 u1 u2 : String} {i1 i2 : Nat}
    (hlen : u1.length = u2.length)
    (h : genName b1 u1 i1 = genName b2 u2 i2) : u1 = u2 ∧ i1 = i2 := by
  have hd : ((genName b1 u1 i1).data).reverse = ((genName b2 u2 i2).data).reverse := by
    rw [h]
  have e1 : ((genName b1 u1 i1).data).reverse
      = (Nat.repr i1).data.reverse
        ++ '-' :: (u1.data.reverse
          ++ '-' :: (b1.data.reverse ++ "autogenerated-".data.reverse)) := by
    simp [genName, List.append_assoc, List.reverse_append]
  have e2 : ((genName b2 u2 i2).data).reverse
      = (Nat.repr i2).data.reverse
        ++ '-' :: (u2.data.reverse
          ++ '-' :: (b2.data.reverse ++ "autogenerated-".data.reverse)) := by
    simp [genName, List.append_assoc, List.reverse_append]
  rw [e1, e2] at hd
  obtain ⟨hr, hrest⟩ := splitLastDash _ _ _ _
    (fun c hc => repr_no_dash i1 c (List.mem_reverse.mp hc))
    (fun c hc => repr_no_dash i2 c (List.mem_reverse.mp hc)) hd
  have hi : i1 = i2 := by
    apply decDigits_inj
    rw [← repr_data, ← repr_data]
    exact List.reverse_injective hr
  obtain ⟨hu, _⟩ := List.append_inj hrest
    (by rw [List.length_reverse, List.length_reverse, str_length_data, str_length_data, hlen])
  have hu' : u1.data = u2.data := List.reverse_injective hu
  refine ⟨?_, hi⟩
  cases u1
  cases u2
  exact congrArg String.mk hu'

/-- Every name produced by the inner loop started at batch position `i` is a
generated name for the loop's injection identifier at some position `≥ i`. -/
theorem insertLoop_names_shape {u : String} :
    ∀ (ls : List Layer) (i : Nat) (maps : List (String × String)) (l0 : Option String)
      (x : String),
      x ∈ (insertLoop u ls i maps l0).1.map Layer.name →
      ∃ b j, i ≤ j ∧ x = genName b u j := by
  intro ls
  induction ls with
  | nil => intro i maps l0 x hx; simp [insertLoop] at hx
  | cons l rest ih =>
    intro i maps l0 x hx
    rw [show (insertLoop u (l :: rest) i maps l0).1
        = renameLayer u i maps l
          :: (insertLoop u rest (i + 1) (dictInsert maps l.name (genName l.name u i))
            (some (genName l.name u i))).1 from rfl, List.map_cons] at hx
    rcases List.mem_cons.mp hx with h1 | h2
    · exact ⟨l.name, i, Nat.le_refl i, h1⟩
    · obtain ⟨b, j, hij, heq⟩ := ih (i + 1) _ _ x h2
      exact ⟨b, j, by omega, heq⟩

theorem insertLoop_names_nodup {u : String} :
    ∀ (ls : List Layer) (i : Nat) (maps : List (String × String)) (l0 : Option String),
      ((insertLoop u ls i maps l0).1.map Layer.name).Nodup := by
  intro ls
  induction ls with
  | nil => intro i maps l0; simp [insertLoop]
  | cons l rest ih =>
    intro i maps l0
    rw [show (insertLoop u (l :: rest) i maps l0).1
        = renameLayer u i maps l
          :: (insertLoop u rest (i + 1) (dictInsert maps l.name (genName l.name u i))
            (some (genName l.name u i))).1 from rfl, List.map_cons]
    refine List.nodup_cons.mpr ⟨?_, ih (i + 1) _ _⟩
    intro hmem
    obtain ⟨b, j, hij, heq⟩ := insertLoop_names_shape rest (i + 1) _ _ _ hmem
    have heq' : genName l.name u i = genName b u j := heq
    have := (genName_inj rfl heq').2
    omega

/-- C5: generated layer names never collide.  Within one `inject` call the
generated names are pairwise distinct (they differ by batch position), and
any two calls given distinct equal-length injection identifiers — `uuid1`
strings all have the same length — produce disjoint sets of generated names,
whatever the graphs, anchors and templates involved. -/
theorem inject_generated_names_unique :
    (∀ (add1 add2 : List Layer) (p1 p2 u1 u2 : String),
      u1.length = u2.length → u1 ≠ u2 →
      ∀ x, x ∈ (insertResult add1 p1 u1).1.map Layer.name →
        x ∉ (insertResult add2 p2 u2).1.map Layer.name)
    ∧ (∀ (add : List Layer) (p u : String),
        ((insertResult add p u).1.map Layer.name).Nodup) := by
  constructor
  · intro add1 add2 p1 p2 u1 u2 hlen hne x hx1 hx2
    obtain ⟨b1, j1, _, he1⟩ := insertLoop_names_shape add1 0 _ _ x hx1
    obtain ⟨b2, j2, _, he2⟩ := insertLoop_names_shape add2 0 _ _ x hx2
    exact hne (genName_inj hlen (he1.symm.trans he2)).1
  · intro add p u
    exact insertLoop_names_nodup add 0 _ _

/-- Witness for `inject_generated_names_unique`: two injections of the same
template batch with the distinct equal-length identifiers `u123` and `v456`
share no generated name, and one call's names are pairwise distinct. -/
theorem inject_generated_names_unique_witness :
    (("u123" : String).length = ("v456" : String).length ∧ "u123" ≠ "v456")
    ∧ (∀ x, x ∈ (insertResult [exX, exY] "A" "u123").1.map Layer.name →
        x ∉ (insertResult [exX, exY] "A" "v456").1.map Layer.name)
    ∧ ((insertResult [exX, exY] "A" "u123").1.map Layer.name).Nodup :=
  ⟨⟨rfl, by decide⟩,
    inject_generated_names_unique.1 [exX, exY] [exX, exY] "A" "A" "u123" "v456"
      rfl (by decide),
    inject_generated_names_unique.2 [exX, exY] "A" "u123"⟩

end Toupee
